import Mathlib

/-!
Verification of the password-game rule engine (Go sources in rules/validate.go,
rules/pool.go and the HTTP handler file containing analyzeRuleChanges) against
its natural-language specification.  The Go code is shallowly embedded: the
in-place mutation of the rule slice performed by ValidatePassword is modelled
by a recursion that carries the already-processed prefix of the slice (the Go
loop at index i reads fields of rules 0..i-1 that were updated earlier in the
same pass, which is exactly the carried prefix).
-/

namespace PasswordGame

/-- Rule mirrors the Go struct rules.Rule: an immutable predicate plus mutable
per-pass display flags. -/
structure Rule where
  ID : Int
  Description : String
  Validator : String → Bool
  IsSatisfied : Bool
  Hint : String
  NewlyRevealed : Bool
  NewlySatisfied : Bool
  IsVisible : Bool
  HasCaptcha : Bool
  Category : String

/-- Zero value of the Go struct, used as the out-of-range default for list
indexing (never reached at in-range indices). -/
def defaultRule : Rule :=
  { ID := 0, Description := "", Validator := fun _ => false, IsSatisfied := false,
    Hint := "", NewlyRevealed := false, NewlySatisfied := false, IsVisible := false,
    HasCaptcha := false, Category := "" }

/-- RuleSet mirrors the Go struct rules.RuleSet. -/
structure RuleSet where
  Rules : List Rule
  Difficulty : String

/-- Visibility computation of one iteration of the ValidatePassword loop.
done is the already-processed prefix rules[0..i-1] (so done.isEmpty holds iff
i == 0, and done.getLast? is rules[i-1] as updated this pass); r is rules[i]
with its pre-pass field values.  The Go branches, in order: (ID == 1 or i == 0)
sets true; previously visible sets true; otherwise, with a non-empty password
and i > 0, the rule is revealed when all previous rules are visible and
rules[i-1].IsSatisfied holds; in every remaining case the field keeps its
pre-pass value (the Go code has no branch that clears IsVisible). -/
def visibleOf (password : String) (oldVisible : Bool) (done : List Rule) (r : Rule) : Bool :=
  if r.ID == 1 || done.isEmpty then true
  else if oldVisible then true
  else if 0 < password.length && !done.isEmpty then
    if done.all (fun q => q.IsVisible) &&
        (match done.getLast? with
         | some q => q.IsSatisfied
         | none => false) then true
    else r.IsVisible
  else r.IsVisible

/-- One iteration of the ValidatePassword loop body on rules[i]:
after the visibility update, the validator runs only when the rule is visible
(updating IsSatisfied and NewlySatisfied), and NewlyRevealed is recomputed
unconditionally. -/
def stepRule (password : String) (oldSatisfied oldVisible : Bool) (done : List Rule) (r : Rule) : Rule :=
  let v := visibleOf password oldVisible done r
  let r1 :=
    if v then
      { r with IsVisible := v, IsSatisfied := r.Validator password,
               NewlySatisfied := !oldSatisfied && r.Validator password }
    else
      { r with IsVisible := v }
  { r1 with NewlyRevealed := !oldVisible && v }

/-- The ValidatePassword loop: done holds the processed prefix; the heads of
the prior-state lists are previousStates[i] and previousVisible[i] (a missing
entry defaults to false, mirroring the Go bounds checks). -/
def validateLoop (password : String) : List Rule → List Rule → List Bool → List Bool → List Rule
  | done, [], _, _ => done
  | done, r :: rest, prevS, prevV =>
      validateLoop password
        (done ++ [stepRule password (prevS.getD 0 false) (prevV.getD 0 false) done r])
        rest prevS.tail prevV.tail

/-- rules.ValidatePassword: updates every rule's flags in slice order. -/
def ValidatePassword (rs : RuleSet) (password : String)
    (previousStates previousVisible : List Bool) : RuleSet :=
  { rs with Rules := validateLoop password [] rs.Rules previousStates previousVisible }

/-- rules.GetSatisfiedStates. -/
def GetSatisfiedStates (rs : RuleSet) : List Bool :=
  rs.Rules.map (fun r => r.IsSatisfied)

/-- rules.GetVisibleStates. -/
def GetVisibleStates (rs : RuleSet) : List Bool :=
  rs.Rules.map (fun r => r.IsVisible)

/-- A session: a sequence of validation passes in which each pass feeds the
previous pass's GetVisibleStates back as priorVisible (password and prior
satisfied states arbitrary per pass). -/
def runPasses (rs : RuleSet) : List (String × List Bool) → RuleSet
  | [] => rs
  | (p, ps) :: rest => runPasses (ValidatePassword rs p ps (GetVisibleStates rs)) rest

/-- Swap test of the GetSortedVisibleRules double loop: with a[i] compared to
a[j] (i < j), the pair is exchanged when both have the same satisfaction
status and a[i].ID > a[j].ID, or when a[i] is satisfied and a[j] is not
(unsatisfied rules first). -/
def shouldSwap (a b : Rule) : Bool :=
  if a.IsSatisfied == b.IsSatisfied then decide (b.ID < a.ID)
  else a.IsSatisfied && !b.IsSatisfied

/-- Inner loop of the exchange sort in GetSortedVisibleRules for a fixed outer
index: the current occupant x of slot i is compared against each later
element in turn, swapping whenever the test fires; the first component is the
final occupant of slot i and the second lists the later slots in order. -/
def selectOne (swap : Rule → Rule → Bool) : Rule → List Rule → Rule × List Rule
  | x, [] => (x, [])
  | x, y :: ys =>
      if swap x y then
        let p := selectOne swap y ys
        (p.1, x :: p.2)
      else
        let p := selectOne swap x ys
        (p.1, y :: p.2)

/-- Outer loop of the exchange sort: slot i receives the result of the inner
scan and the remaining slots are processed the same way. -/
def selSort (swap : Rule → Rule → Bool) : List Rule → List Rule
  | [] => []
  | x :: xs => (selectOne swap x xs).1 :: selSort swap (selectOne swap x xs).2
termination_by l => l.length
decreasing_by
  have hlen : ∀ (s : Rule) (l : List Rule), ((selectOne swap s l).2).length = l.length := by
    intro s l
    induction l generalizing s with
    | nil => rfl
    | cons y ys ih =>
        by_cases h : swap s y = true
        · simp [selectOne, h, ih]
        · simp [selectOne, h, ih]
  simp [hlen]

/-- rules.GetSortedVisibleRules: collect the visible rules, then run the
double swap loop. -/
def GetSortedVisibleRules (rs : RuleSet) : List Rule :=
  selSort shouldSwap (rs.Rules.filter (fun r => r.IsVisible))

/-- The display order stated by the spec: unsatisfied rules strictly before
satisfied ones, ties broken by ascending ID. -/
def keyLe (a b : Rule) : Prop :=
  (a.IsSatisfied = false ∧ b.IsSatisfied = true) ∨
  (a.IsSatisfied = b.IsSatisfied ∧ a.ID ≤ b.ID)

/-- Swap test modelling the sort.Slice call in NewRuleSet, whose less function
is rules[i].ID < rules[j].ID (an exchange sort with this test yields the same
ascending-ID order as sort.Slice, uniquely so when IDs are distinct). -/
def byIDSwap (a b : Rule) : Bool :=
  decide (b.ID < a.ID)

/-- rules.GetRulesByCategory, with the cached global pool passed explicitly. -/
def GetRulesByCategory (pool : List Rule) (category : String) : List Rule :=
  pool.filter (fun r => r.Category == category)

/-- rules.GetRulesByIDs: membership of the ID in the requested set, keeping
pool order. -/
def GetRulesByIDs (pool : List Rule) (ids : List Int) : List Rule :=
  pool.filter (fun r => ids.contains r.ID)

/-- rules.NewRuleSet, with the pool and the decoded assignments.json mapping
passed explicitly (the Go code reads the mapping from a process-wide cache; a
failed load leaves the mapping empty, which the empty association list
represents).  An unknown difficulty falls back to the basic category; a known
one resolves the configured IDs and sorts ascending by ID. -/
def NewRuleSet (pool : List Rule) (assignments : List (String × List Int))
    (difficulty : String) : RuleSet :=
  match assignments.lookup difficulty with
  | none => { Rules := GetRulesByCategory pool "basic", Difficulty := difficulty }
  | some ruleIDs => { Rules := selSort byIDSwap (GetRulesByIDs pool ruleIDs), Difficulty := difficulty }

/-- Result record of analyzeRuleChanges (handler file). -/
structure RuleChangeAnalysis where
  NewlySatisfied : List Int
  NewlyUnsatisfied : List Int
  NewlyVisible : List Int
  NewlyHidden : List Int
  HasChanges : Bool

/-- Initial accumulator of analyzeRuleChanges: four empty buckets, no
changes. -/
def emptyAnalysis : RuleChangeAnalysis :=
  { NewlySatisfied := [], NewlyUnsatisfied := [], NewlyVisible := [],
    NewlyHidden := [], HasChanges := false }

/-- Body of the analyzeRuleChanges loop for the rule at index i.  Satisfaction
transitions are classified only when previousSatisfied has an entry at i (the
Go code has no else branch on that bounds check); visibility transitions are
classified when previousVisible has an entry at i, and a rule with no prior
visibility entry that is visible is recorded as newly visible. -/
def analyzeOne (previousSatisfied previousVisible : List Bool) (i : Nat) (r : Rule)
    (a : RuleChangeAnalysis) : RuleChangeAnalysis :=
  let a1 :=
    match previousSatisfied.get? i with
    | some wasS =>
        if !wasS && r.IsSatisfied then
          { a with NewlySatisfied := a.NewlySatisfied ++ [r.ID], HasChanges := true }
        else if wasS && !r.IsSatisfied then
          { a with NewlyUnsatisfied := a.NewlyUnsatisfied ++ [r.ID], HasChanges := true }
        else a
    | none => a
  match previousVisible.get? i with
  | some wasV =>
      if !wasV && r.IsVisible then
        { a1 with NewlyVisible := a1.NewlyVisible ++ [r.ID], HasChanges := true }
      else if wasV && !r.IsVisible then
        { a1 with NewlyHidden := a1.NewlyHidden ++ [r.ID], HasChanges := true }
      else a1
  | none =>
      if r.IsVisible then
        { a1 with NewlyVisible := a1.NewlyVisible ++ [r.ID], HasChanges := true }
      else a1

/-- The analyzeRuleChanges loop over the rules with their indices. -/
def analyzeLoop (previousSatisfied previousVisible : List Bool) :
    Nat → List Rule → RuleChangeAnalysis → RuleChangeAnalysis
  | _, [], a => a
  | i, r :: rest, a =>
      analyzeLoop previousSatisfied previousVisible (i + 1) rest
        (analyzeOne previousSatisfied previousVisible i r a)

/-- analyzeRuleChanges from the handler file. -/
def analyzeRuleChanges (currentRules : List Rule)
    (previousSatisfied previousVisible : List Bool) : RuleChangeAnalysis :=
  analyzeLoop previousSatisfied previousVisible 0 currentRules emptyAnalysis

/-- Predicate under which a rule lands in NewlySatisfied: a prior satisfied
entry exists, was false, and the rule is now satisfied. -/
def satNewP : Option Bool → Rule → Bool
  | some w, r => !w && r.IsSatisfied
  | none, _ => false

/-- Predicate under which a rule lands in NewlyUnsatisfied. -/
def satGoneP : Option Bool → Rule → Bool
  | some w, r => w && !r.IsSatisfied
  | none, r => false && r.IsSatisfied

/-- Predicate under which a rule lands in NewlyVisible (a rule with no prior
entry counts when visible). -/
def visNewP : Option Bool → Rule → Bool
  | some w, r => !w && r.IsVisible
  | none, r => r.IsVisible

/-- Predicate under which a rule lands in NewlyHidden. -/
def visGoneP : Option Bool → Rule → Bool
  | some w, r => w && !r.IsVisible
  | none, r => false && r.IsVisible

/-- IDs of the rules, in order, whose prior entry and current state satisfy p;
used to describe each bucket of analyzeRuleChanges in closed form. -/
def idsWhere (p : Option Bool → Rule → Bool) (prior : List Bool) :
    Nat → List Rule → List Int
  | _, [] => []
  | i, r :: rest =>
      (if p (prior.get? i) r then [r.ID] else []) ++ idsWhere p prior (i + 1) rest

/-- Whether any of the four transition predicates fires on some rule; used to
describe the HasChanges flag in closed form. -/
def anyChange (previousSatisfied previousVisible : List Bool) :
    Nat → List Rule → Bool
  | _, [] => false
  | i, r :: rest =>
      satNewP (previousSatisfied.get? i) r || satGoneP (previousSatisfied.get? i) r ||
      visNewP (previousVisible.get? i) r || visGoneP (previousVisible.get? i) r ||
      anyChange previousSatisfied previousVisible (i + 1) rest

/-- Concrete rule with fresh (all-false) flags, for witness instances. -/
def mkTestRule (id : Int) (v : String → Bool) : Rule :=
  { ID := id, Description := "", Validator := v, IsSatisfied := false, Hint := "",
    NewlyRevealed := false, NewlySatisfied := false, IsVisible := false,
    HasCaptcha := false, Category := "basic" }

/-- Concrete validator: password at least 8 characters (rule 1 of the pool). -/
def lenAtLeast8 (s : String) : Bool :=
  decide (8 ≤ s.length)

/-- Concrete two-rule set with fresh flags, IDs 1 and 2. -/
def testRS : RuleSet :=
  { Rules := [mkTestRule 1 lenAtLeast8, mkTestRule 2 lenAtLeast8], Difficulty := "easy" }

/-- Concrete rule set with a rule of ID 1 at index 1 (flags fresh): legal
input to ValidatePassword, though not the order NewRuleSet would build. -/
def cexRuleSetID1 : RuleSet :=
  { Rules := [mkTestRule 2 lenAtLeast8, mkTestRule 1 lenAtLeast8], Difficulty := "d" }

/-- Concrete rule that is satisfied and visible, for exercising the change
analyzer with empty prior state. -/
def cexRuleSat : Rule :=
  { mkTestRule 1 lenAtLeast8 with IsSatisfied := true, IsVisible := true }

/-- Concrete rule set without any ID-1 rule whose third rule carries a stale
in-memory IsVisible flag. -/
def cexRuleSetStale : RuleSet :=
  { Rules := [mkTestRule 2 lenAtLeast8, mkTestRule 3 lenAtLeast8,
      { mkTestRule 4 lenAtLeast8 with IsVisible := true }], Difficulty := "d" }

theorem validateLoop_length (password : String) :
    ∀ (todo done : List Rule) (ps pv : List Bool),
      (validateLoop password done todo ps pv).length = done.length + todo.length := by
  intro todo
  induction todo with
  | nil => intro done ps pv; simp [validateLoop]
  | cons r rest ih =>
      intro done ps pv
      simp only [validateLoop]
      rw [ih]
      simp
      omega

theorem validateLoop_getD_left (password : String) :
    ∀ (todo done : List Rule) (ps pv : List Bool) (j : Nat) (d : Rule),
      j < done.length →
      (validateLoop password done todo ps pv).getD j d = done.getD j d := by
  intro todo
  induction todo with
  | nil => intro done ps pv j d hj; simp [validateLoop]
  | cons r rest ih =>
      intro done ps pv j d hj
      simp only [validateLoop]
      rw [ih]
      · exact List.getD_append done _ d j hj
      · simp
        omega

theorem validateLoop_take (password : String) :
    ∀ (todo done : List Rule) (ps pv : List Bool),
      (validateLoop password done todo ps pv).take done.length = done := by
  intro todo
  induction todo with
  | nil => intro done ps pv; simp [validateLoop]
  | cons r rest ih =>
      intro done ps pv
      simp only [validateLoop]
      have h1 := ih (done ++ [stepRule password (ps.getD 0 false) (pv.getD 0 false) done r]) ps.tail pv.tail
      have h2 := List.take_take done.length
        ((done ++ [stepRule password (ps.getD 0 false) (pv.getD 0 false) done r]).length)
        (validateLoop password
          (done ++ [stepRule password (ps.getD 0 false) (pv.getD 0 false) done r])
          rest ps.tail pv.tail)
      rw [h1] at h2
      have hmin : done.length ⊓ (done ++ [stepRule password (ps.getD 0 false) (pv.getD 0 false) done r]).length = done.length := by
        simp
      rw [hmin] at h2
      rw [← h2]
      exact List.take_left done _

theorem validateLoop_take_le (password : String) (todo done : List Rule)
    (ps pv : List Bool) (k : Nat) (hk : k ≤ done.length) :
    (validateLoop password done todo ps pv).take k = done.take k := by
  have h1 := validateLoop_take password todo done ps pv
  have h2 := List.take_take k done.length (validateLoop password done todo ps pv)
  rw [h1, min_eq_left hk] at h2
  exact h2.symm

theorem getD_tail (l : List Bool) (n : Nat) (d : Bool) :
    l.tail.getD n d = l.getD (n + 1) d := by
  cases l <;> simp

theorem validateLoop_getD (password : String) :
    ∀ (todo done : List Rule) (ps pv : List Bool) (i : Nat), i < todo.length →
      (validateLoop password done todo ps pv).getD (done.length + i) defaultRule =
        stepRule password (ps.getD i false) (pv.getD i false)
          ((validateLoop password done todo ps pv).take (done.length + i))
          (todo.getD i defaultRule) := by
  intro todo
  induction todo with
  | nil => intro done ps pv i hi; simp at hi
  | cons r rest ih =>
      intro done ps pv i hi
      cases i with
      | zero =>
          have htake : (validateLoop password done (r :: rest) ps pv).take (done.length + 0) = done := by
            have := validateLoop_take_le password (r :: rest) done ps pv done.length (le_refl _)
            simpa using this
          rw [htake]
          simp only [validateLoop, List.getD_cons_zero, Nat.add_zero]
          rw [validateLoop_getD_left password rest _ ps.tail pv.tail done.length defaultRule (by simp)]
          rw [List.getD_append_right done _ defaultRule done.length (le_refl _)]
          simp
      | succ n =>
          have harith : done.length + (n + 1) =
              (done ++ [stepRule password (ps.getD 0 false) (pv.getD 0 false) done r]).length + n := by
            simp
            omega
          simp only [validateLoop]
          rw [harith, ih _ ps.tail pv.tail n (by simpa using hi)]
          rw [getD_tail, getD_tail]
          simp [List.getD_cons_succ]

theorem ValidatePassword_Rules_length (rs : RuleSet) (password : String)
    (ps pv : List Bool) :
    (ValidatePassword rs password ps pv).Rules.length = rs.Rules.length := by
  have := validateLoop_length password rs.Rules [] ps pv
  simpa [ValidatePassword] using this

theorem ValidatePassword_Rules_getD (rs : RuleSet) (password : String)
    (ps pv : List Bool) (i : Nat) (hi : i < rs.Rules.length) :
    (ValidatePassword rs password ps pv).Rules.getD i defaultRule =
      stepRule password (ps.getD i false) (pv.getD i false)
        ((ValidatePassword rs password ps pv).Rules.take i)
        (rs.Rules.getD i defaultRule) := by
  have := validateLoop_getD password rs.Rules [] ps pv i hi
  simpa [ValidatePassword] using this

theorem stepRule_IsVisible (password : String) (oS oV : Bool) (done : List Rule) (r : Rule) :
    (stepRule password oS oV done r).IsVisible = visibleOf password oV done r := by
  unfold stepRule
  dsimp only
  split <;> rfl

theorem stepRule_ID (password : String) (oS oV : Bool) (done : List Rule) (r : Rule) :
    (stepRule password oS oV done r).ID = r.ID := by
  unfold stepRule
  dsimp only
  split <;> rfl

theorem stepRule_IsSatisfied (password : String) (oS oV : Bool) (done : List Rule) (r : Rule) :
    (stepRule password oS oV done r).IsSatisfied =
      if visibleOf password oV done r then r.Validator password else r.IsSatisfied := by
  unfold stepRule
  dsimp only
  split <;> simp_all

theorem stepRule_NewlySatisfied (password : String) (oS oV : Bool) (done : List Rule) (r : Rule) :
    (stepRule password oS oV done r).NewlySatisfied =
      if visibleOf password oV done r then (!oS && r.Validator password) else r.NewlySatisfied := by
  unfold stepRule
  dsimp only
  split <;> simp_all

theorem stepRule_NewlyRevealed (password : String) (oS oV : Bool) (done : List Rule) (r : Rule) :
    (stepRule password oS oV done r).NewlyRevealed = (!oV && visibleOf password oV done r) := by
  unfold stepRule
  dsimp only

theorem visibleOf_oldVisible (password : String) (done : List Rule) (r : Rule) :
    visibleOf password true done r = true := by
  simp [visibleOf]

theorem visibleOf_keep (password : String) (oV : Bool) (done : List Rule) (r : Rule)
    (h : r.IsVisible = true) : visibleOf password oV done r = true := by
  simp [visibleOf, h]

theorem vis_of_priorVisible (rs : RuleSet) (password : String) (ps pv : List Bool)
    (i : Nat) (hi : i < rs.Rules.length) (hpv : pv.getD i false = true) :
    (((ValidatePassword rs password ps pv).Rules).getD i defaultRule).IsVisible = true := by
  rw [ValidatePassword_Rules_getD rs password ps pv i hi, stepRule_IsVisible, hpv]
  exact visibleOf_oldVisible password _ _

theorem vis_of_was_visible (rs : RuleSet) (password : String) (ps pv : List Bool)
    (i : Nat) (hi : i < rs.Rules.length)
    (h : ((rs.Rules).getD i defaultRule).IsVisible = true) :
    (((ValidatePassword rs password ps pv).Rules).getD i defaultRule).IsVisible = true := by
  rw [ValidatePassword_Rules_getD rs password ps pv i hi, stepRule_IsVisible]
  exact visibleOf_keep password _ _ _ h

/-- C1: priorVisible entries that are true force IsVisible after the pass, and
over any session in which each pass feeds GetVisibleStates back as the next
priorVisible, a rule visible in some pass stays visible in all later passes,
for every rule set, password sequence and prior satisfied states. -/
theorem monotonic_visibility :
    (∀ (rs : RuleSet) (password : String) (ps pv : List Bool) (i : Nat),
        i < rs.Rules.length → pv.getD i false = true →
        (((ValidatePassword rs password ps pv).Rules).getD i defaultRule).IsVisible = true)
    ∧ (∀ (rs : RuleSet) (passes : List (String × List Bool)) (i : Nat),
        i < rs.Rules.length → ((rs.Rules).getD i defaultRule).IsVisible = true →
        (((runPasses rs passes).Rules).getD i defaultRule).IsVisible = true) := by
  constructor
  · exact vis_of_priorVisible
  · intro rs passes
    induction passes generalizing rs with
    | nil => intro i hi hv; simpa [runPasses] using hv
    | cons pr rest ih =>
        intro i hi hv
        obtain ⟨p, psat⟩ := pr
        simp only [runPasses]
        have hlen := ValidatePassword_Rules_length rs p psat (GetVisibleStates rs)
        exact ih (ValidatePassword rs p psat (GetVisibleStates rs)) i (by omega)
          (vis_of_was_visible rs p psat (GetVisibleStates rs) i hi hv)

theorem monotonic_visibility_witness :
    (((ValidatePassword testRS "" [] [false, true]).Rules).getD 1 defaultRule).IsVisible = true :=
  monotonic_visibility.1 testRS "" [] [false, true] 1 (by decide) (by decide)

/-- C6: after ValidatePassword the rule at index 0 is visible, for every
non-empty rule set, every password (the empty string included) and all prior
state sequences. -/
theorem first_rule_visible (rs : RuleSet) (password : String) (ps pv : List Bool)
    (h : 0 < rs.Rules.length) :
    (((ValidatePassword rs password ps pv).Rules).getD 0 defaultRule).IsVisible = true := by
  rw [ValidatePassword_Rules_getD rs password ps pv 0 h, stepRule_IsVisible]
  simp [visibleOf]

theorem first_rule_visible_witness :
    (((ValidatePassword testRS "" [] []).Rules).getD 0 defaultRule).IsVisible = true :=
  first_rule_visible testRS "" [] [] (by decide)

theorem getD_mem_of_lt (l : List Rule) (i : Nat) (hi : i < l.length) :
    l.getD i defaultRule ∈ l := by
  rw [List.getD_eq_getElem l defaultRule hi]
  exact List.getElem_mem hi

/-- C3: on a freshly constructed rule set (all flags false), after
ValidatePassword each rule at index i satisfies
NewlyRevealed = (not oldVisible) and IsVisible and
NewlySatisfied = (not oldSatisfied) and IsSatisfied, the prior entries
defaulting to false when the prior-state lists are shorter than i+1. -/
theorem derived_flag_equations (rs : RuleSet) (password : String) (ps pv : List Bool)
    (hfresh : ∀ r ∈ rs.Rules, r.IsSatisfied = false ∧ r.IsVisible = false ∧
      r.NewlySatisfied = false ∧ r.NewlyRevealed = false)
    (i : Nat) (hi : i < rs.Rules.length) :
    ((ValidatePassword rs password ps pv).Rules.getD i defaultRule).NewlyRevealed =
      (!(pv.getD i false) &&
        ((ValidatePassword rs password ps pv).Rules.getD i defaultRule).IsVisible)
    ∧ ((ValidatePassword rs password ps pv).Rules.getD i defaultRule).NewlySatisfied =
      (!(ps.getD i false) &&
        ((ValidatePassword rs password ps pv).Rules.getD i defaultRule).IsSatisfied) := by
  have hr := hfresh _ (getD_mem_of_lt rs.Rules i hi)
  rw [ValidatePassword_Rules_getD rs password ps pv i hi]
  rw [stepRule_NewlyRevealed, stepRule_IsVisible, stepRule_NewlySatisfied, stepRule_IsSatisfied]
  refine ⟨rfl, ?_⟩
  cases hv : visibleOf password (pv.getD i false)
      ((ValidatePassword rs password ps pv).Rules.take i) (rs.Rules.getD i defaultRule) with
  | false => simp_all
  | true => simp

theorem derived_flag_equations_witness :
    ((ValidatePassword testRS "abc" [] []).Rules.getD 0 defaultRule).NewlyRevealed =
      (!(([] : List Bool).getD 0 false) &&
        ((ValidatePassword testRS "abc" [] []).Rules.getD 0 defaultRule).IsVisible) :=
  (derived_flag_equations testRS "abc" [] [] (by decide) 0 (by decide)).1

/-- C9: on a freshly constructed rule set (all flags false), a rule that is
not visible after ValidatePassword has IsSatisfied = false and
NewlySatisfied = false, whatever the password would make of its predicate. -/
theorem hidden_rules_unsatisfied (rs : RuleSet) (password : String) (ps pv : List Bool)
    (hfresh : ∀ r ∈ rs.Rules, r.IsSatisfied = false ∧ r.IsVisible = false ∧
      r.NewlySatisfied = false ∧ r.NewlyRevealed = false)
    (i : Nat) (hi : i < rs.Rules.length)
    (hinv : ((ValidatePassword rs password ps pv).Rules.getD i defaultRule).IsVisible = false) :
    ((ValidatePassword rs password ps pv).Rules.getD i defaultRule).IsSatisfied = false ∧
    ((ValidatePassword rs password ps pv).Rules.getD i defaultRule).NewlySatisfied = false := by
  have hr := hfresh _ (getD_mem_of_lt rs.Rules i hi)
  rw [ValidatePassword_Rules_getD rs password ps pv i hi] at hinv ⊢
  rw [stepRule_IsVisible] at hinv
  rw [stepRule_IsSatisfied, stepRule_NewlySatisfied, hinv]
  simp_all

theorem hidden_rules_unsatisfied_witness :
    ((ValidatePassword testRS "" [] []).Rules.getD 1 defaultRule).IsSatisfied = false ∧
    ((ValidatePassword testRS "" [] []).Rules.getD 1 defaultRule).NewlySatisfied = false :=
  hidden_rules_unsatisfied testRS "" [] [] (by decide) 1 (by decide) (by decide)

theorem take_getD (l : List Rule) (i j : Nat) (d : Rule) (h : j < i) :
    (l.take i).getD j d = l.getD j d := by
  rw [List.getD_eq_getElem?_getD, List.getD_eq_getElem?_getD, List.getElem?_take, if_pos h]

theorem take_getLast (l : List Rule) (i : Nat) (h0 : 0 < i) (h : i ≤ l.length) :
    (l.take i).getLast? = some (l.getD (i - 1) defaultRule) := by
  rw [List.getLast?_eq_getElem?]
  have hlen : (l.take i).length = i := by
    simp [List.length_take]
    omega
  rw [hlen, List.getElem?_take, if_pos (by omega)]
  rw [List.getD_eq_getElem l defaultRule (by omega)]
  exact List.getElem?_eq_getElem (by omega)

theorem visibleOf_true_cases (password : String) (oV : Bool) (done : List Rule) (r : Rule)
    (h : visibleOf password oV done r = true) :
    r.ID = 1 ∨ done = [] ∨ oV = true ∨ r.IsVisible = true ∨
    (0 < password.length ∧ done.all (fun q => q.IsVisible) = true ∧
      (match done.getLast? with | some q => q.IsSatisfied | none => false) = true) := by
  unfold visibleOf at h
  by_cases h1 : (r.ID == 1 || done.isEmpty) = true
  · simp only [Bool.or_eq_true, beq_iff_eq, List.isEmpty_iff] at h1
    tauto
  · rw [if_neg h1] at h
    by_cases h2 : oV = true
    · exact Or.inr (Or.inr (Or.inl h2))
    · rw [if_neg h2] at h
      by_cases h3 : (0 < password.length && !done.isEmpty) = true
      · rw [if_pos h3] at h
        by_cases h4 : (done.all (fun q => q.IsVisible) &&
            (match done.getLast? with | some q => q.IsSatisfied | none => false)) = true
        · simp only [Bool.and_eq_true, decide_eq_true_eq] at h3 h4
          exact Or.inr (Or.inr (Or.inr (Or.inr ⟨h3.1, h4.1, h4.2⟩)))
        · rw [if_neg h4] at h
          exact Or.inr (Or.inr (Or.inr (Or.inl h)))
      · rw [if_neg h3] at h
        exact Or.inr (Or.inr (Or.inr (Or.inl h)))

/-- C2 counterexample: for the rule set [ID 2, ID 1] (fresh flags), empty
password and empty prior state, the rule at index 1 ends the pass visible even
though its prior visible entry is false and the password is empty, so neither
branch of the claimed disjunction holds: the ID == 1 test reveals it
unconditionally. -/
theorem sequential_gating_counterexample :
    ((ValidatePassword cexRuleSetID1 "" [] []).Rules.getD 1 defaultRule).IsVisible = true
    ∧ ([] : List Bool).getD 1 false = false
    ∧ ("" : String).length = 0 := by
  refine ⟨?_, rfl, rfl⟩
  decide

theorem gating_cases (rs : RuleSet) (password : String) (ps pv : List Bool)
    (i : Nat) (h0 : 0 < i) (hi : i < rs.Rules.length)
    (hvis : ((ValidatePassword rs password ps pv).Rules.getD i defaultRule).IsVisible = true) :
    pv.getD i false = true ∨
    (rs.Rules.getD i defaultRule).ID = 1 ∨
    (rs.Rules.getD i defaultRule).IsVisible = true ∨
    (0 < password.length ∧
      (∀ j, j < i →
        ((ValidatePassword rs password ps pv).Rules.getD j defaultRule).IsVisible = true) ∧
      ((ValidatePassword rs password ps pv).Rules.getD (i - 1) defaultRule).IsSatisfied = true) := by
  rw [ValidatePassword_Rules_getD rs password ps pv i hi, stepRule_IsVisible] at hvis
  have hreslen := ValidatePassword_Rules_length rs password ps pv
  rcases visibleOf_true_cases password (pv.getD i false) _ _ hvis with
    hid | hnil | hold | hkeep | ⟨hpw, hall, hlast⟩
  · exact Or.inr (Or.inl hid)
  · exfalso
    have hlen : (List.take i (ValidatePassword rs password ps pv).Rules).length = i := by
      simp [List.length_take]
      omega
    rw [hnil] at hlen
    simp at hlen
    omega
  · exact Or.inl hold
  · exact Or.inr (Or.inr (Or.inl hkeep))
  · refine Or.inr (Or.inr (Or.inr ⟨hpw, ?_, ?_⟩))
    · intro j hj
      have hmem : (ValidatePassword rs password ps pv).Rules.getD j defaultRule ∈
          List.take i (ValidatePassword rs password ps pv).Rules := by
        rw [← take_getD _ i j defaultRule hj]
        exact getD_mem_of_lt _ j (by simp [List.length_take]; omega)
      exact (List.all_eq_true.mp hall) _ hmem
    · rw [take_getLast _ i h0 (by omega)] at hlast
      simpa using hlast

/-- C2 (amended): for every rule set and index i > 0, if the rule at index i
is visible after a ValidatePassword pass then its priorVisible entry was true,
or its ID is 1 (such rules are revealed unconditionally), or its IsVisible
flag was already true in memory before the pass (the pass never clears the
flag), or the reveal happened in this pass with the three gate conditions
holding: non-empty password, every rule below i visible, and rule i-1
satisfied as recomputed earlier in the same pass. -/
theorem sequential_gating_amended (rs : RuleSet) (password : String) (ps pv : List Bool)
    (i : Nat) (h0 : 0 < i) (hi : i < rs.Rules.length)
    (hvis : ((ValidatePassword rs password ps pv).Rules.getD i defaultRule).IsVisible = true) :
    pv.getD i false = true ∨
    (rs.Rules.getD i defaultRule).ID = 1 ∨
    (rs.Rules.getD i defaultRule).IsVisible = true ∨
    (0 < password.length ∧
      (∀ j, j < i →
        ((ValidatePassword rs password ps pv).Rules.getD j defaultRule).IsVisible = true) ∧
      ((ValidatePassword rs password ps pv).Rules.getD (i - 1) defaultRule).IsSatisfied = true) :=
  gating_cases rs password ps pv i h0 hi hvis

theorem sequential_gating_witness :
    ([] : List Bool).getD 1 false = true ∨
    (testRS.Rules.getD 1 defaultRule).ID = 1 ∨
    (testRS.Rules.getD 1 defaultRule).IsVisible = true ∨
    (0 < ("aaaaaaaa" : String).length ∧
      (∀ j, j < 1 →
        ((ValidatePassword testRS "aaaaaaaa" [] []).Rules.getD j defaultRule).IsVisible = true) ∧
      ((ValidatePassword testRS "aaaaaaaa" [] []).Rules.getD 0 defaultRule).IsSatisfied = true) :=
  sequential_gating_amended testRS "aaaaaaaa" [] [] 1 (by decide) (by decide) (by decide)

theorem ValidatePassword_ID (rs : RuleSet) (password : String) (ps pv : List Bool)
    (i : Nat) (hi : i < rs.Rules.length) :
    ((ValidatePassword rs password ps pv).Rules.getD i defaultRule).ID =
      (rs.Rules.getD i defaultRule).ID := by
  rw [ValidatePassword_Rules_getD rs password ps pv i hi, stepRule_ID]

theorem GetVisibleStates_getD (rs : RuleSet) (i : Nat) :
    (GetVisibleStates rs).getD i false =
      ((rs.Rules.getD i defaultRule).IsVisible && decide (i < rs.Rules.length)) := by
  unfold GetVisibleStates
  rw [List.getD_eq_getElem?_getD, List.getElem?_map]
  by_cases h : i < rs.Rules.length
  · rw [List.getElem?_eq_getElem h]
    simp [List.getD_eq_getElem _ _ h, h]
  · have hle : rs.Rules.length ≤ i := by omega
    rw [List.getElem?_eq_none hle]
    simp [h]

theorem vis_step_down (rs : RuleSet) (password : String) (ps pv : List Bool)
    (hID : ∀ k, k < rs.Rules.length → 0 < k → (rs.Rules.getD k defaultRule).ID ≠ 1)
    (hpv : ∀ a, a < pv.length → ∀ b, b ≤ a → pv.getD a false = true →
      pv.getD b false = true)
    (hmem : ∀ a, a < rs.Rules.length → ∀ b, b ≤ a →
      (rs.Rules.getD a defaultRule).IsVisible = true →
      (rs.Rules.getD b defaultRule).IsVisible = true)
    (i : Nat) (h0 : 0 < i) (hi : i < rs.Rules.length)
    (hvis : ((ValidatePassword rs password ps pv).Rules.getD i defaultRule).IsVisible = true) :
    ((ValidatePassword rs password ps pv).Rules.getD (i - 1) defaultRule).IsVisible = true := by
  rcases gating_cases rs password ps pv i h0 hi hvis with hold | hid | hkeep | ⟨hpw, hall, hsat⟩
  · have hlt : i < pv.length := by
      by_contra hc
      rw [List.getD_eq_default pv false (by omega)] at hold
      simp at hold
    exact vis_of_priorVisible rs password ps pv (i - 1) (by omega)
      (hpv i hlt (i - 1) (by omega) hold)
  · exact absurd hid (hID i hi h0)
  · exact vis_of_was_visible rs password ps pv (i - 1) (by omega)
      (hmem i hi (i - 1) (by omega) hkeep)
  · exact hall (i - 1) (by omega)

theorem vis_down_closed_pass (rs : RuleSet) (password : String) (ps pv : List Bool)
    (hID : ∀ k, k < rs.Rules.length → 0 < k → (rs.Rules.getD k defaultRule).ID ≠ 1)
    (hpv : ∀ a, a < pv.length → ∀ b, b ≤ a → pv.getD a false = true →
      pv.getD b false = true)
    (hmem : ∀ a, a < rs.Rules.length → ∀ b, b ≤ a →
      (rs.Rules.getD a defaultRule).IsVisible = true →
      (rs.Rules.getD b defaultRule).IsVisible = true) :
    ∀ i j, j ≤ i → i < rs.Rules.length →
      ((ValidatePassword rs password ps pv).Rules.getD i defaultRule).IsVisible = true →
      ((ValidatePassword rs password ps pv).Rules.getD j defaultRule).IsVisible = true := by
  intro i
  induction i with
  | zero =>
      intro j hj hi hv
      have hj0 : j = 0 := by omega
      subst hj0
      exact hv
  | succ n ih =>
      intro j hj hi hv
      by_cases hj1 : j = n + 1
      · subst hj1
        exact hv
      · have hstep := vis_step_down rs password ps pv hID hpv hmem (n + 1) (by omega) hi hv
        simp only [Nat.add_sub_cancel] at hstep
        exact ih j (by omega) (by omega) hstep

theorem runPasses_down_closed (passes : List (String × List Bool)) :
    ∀ (rs : RuleSet),
      (∀ k, k < rs.Rules.length → 0 < k → (rs.Rules.getD k defaultRule).ID ≠ 1) →
      (∀ a, a < rs.Rules.length → ∀ b, b ≤ a →
        (rs.Rules.getD a defaultRule).IsVisible = true →
        (rs.Rules.getD b defaultRule).IsVisible = true) →
      ∀ i j, j ≤ i → i < (runPasses rs passes).Rules.length →
        ((runPasses rs passes).Rules.getD i defaultRule).IsVisible = true →
        ((runPasses rs passes).Rules.getD j defaultRule).IsVisible = true := by
  induction passes with
  | nil =>
      intro rs h1 h2 i j hj hi hv
      simp only [runPasses] at hi hv ⊢
      exact h2 i hi j hj hv
  | cons pr rest ih =>
      intro rs h1 h2
      obtain ⟨p, psat⟩ := pr
      simp only [runPasses]
      have hlen := ValidatePassword_Rules_length rs p psat (GetVisibleStates rs)
      apply ih
      · intro k hk h0k
        rw [ValidatePassword_ID rs p psat (GetVisibleStates rs) k (by omega)]
        exact h1 k (by omega) h0k
      · intro a ha b hab hva
        refine vis_down_closed_pass rs p psat (GetVisibleStates rs) h1 ?_ h2 a b hab
          (by omega) hva
        intro x hx y hxy hvx
        have hxlen : x < rs.Rules.length := by
          have hgl : (GetVisibleStates rs).length = rs.Rules.length := by
            simp [GetVisibleStates]
          omega
        rw [GetVisibleStates_getD] at hvx
        simp only [Bool.and_eq_true, decide_eq_true_eq] at hvx
        have hvy := h2 x hxlen y hxy hvx.1
        rw [GetVisibleStates_getD]
        simp only [hvy, Bool.true_and, decide_eq_true_eq]
        omega

/-- C10 counterexample: a rule set without any ID-1 rule whose third rule has
a stale in-memory IsVisible flag, validated with empty password and empty
(hence trivially down-closed) prior visible state: after the pass the rule at
index 2 is visible while the rule at index 1 is not, so the visible rules do
not form a contiguous prefix. -/
theorem visible_down_closed_counterexample :
    ((ValidatePassword cexRuleSetStale "" [] []).Rules.getD 2 defaultRule).IsVisible = true
    ∧ ((ValidatePassword cexRuleSetStale "" [] []).Rules.getD 1 defaultRule).IsVisible = false
    ∧ (∀ k, k < cexRuleSetStale.Rules.length →
        (cexRuleSetStale.Rules.getD k defaultRule).ID ≠ 1) := by
  refine ⟨by decide, by decide, by decide⟩

/-- C10 (amended): when no rule at a positive index has ID 1 and the in-memory
IsVisible flags are down-closed before the pass (e.g. a freshly constructed
set, all false), a ValidatePassword pass with a down-closed priorVisible
sequence leaves the visible rules a contiguous prefix; in particular a session
started from a fresh rule set keeps the visible set a prefix after every
pass. -/
theorem visible_down_closed :
    (∀ (rs : RuleSet) (password : String) (ps pv : List Bool),
      (∀ k, k < rs.Rules.length → 0 < k → (rs.Rules.getD k defaultRule).ID ≠ 1) →
      (∀ a, a < pv.length → ∀ b, b ≤ a → pv.getD a false = true →
        pv.getD b false = true) →
      (∀ a, a < rs.Rules.length → ∀ b, b ≤ a →
        (rs.Rules.getD a defaultRule).IsVisible = true →
        (rs.Rules.getD b defaultRule).IsVisible = true) →
      ∀ i j, j ≤ i → i < rs.Rules.length →
        ((ValidatePassword rs password ps pv).Rules.getD i defaultRule).IsVisible = true →
        ((ValidatePassword rs password ps pv).Rules.getD j defaultRule).IsVisible = true)
    ∧ (∀ (rs : RuleSet) (passes : List (String × List Bool)),
      (∀ k, k < rs.Rules.length → 0 < k → (rs.Rules.getD k defaultRule).ID ≠ 1) →
      (∀ r ∈ rs.Rules, r.IsVisible = false) →
      ∀ i j, j ≤ i → i < (runPasses rs passes).Rules.length →
        ((runPasses rs passes).Rules.getD i defaultRule).IsVisible = true →
        ((runPasses rs passes).Rules.getD j defaultRule).IsVisible = true) := by
  constructor
  · exact vis_down_closed_pass
  · intro rs passes h1 hfresh
    refine runPasses_down_closed passes rs h1 ?_
    intro a ha b hab hva
    have hfa := hfresh _ (getD_mem_of_lt rs.Rules a ha)
    rw [hfa] at hva
    exact absurd hva (by simp)

theorem visible_down_closed_witness :
    ((ValidatePassword testRS "pw" [] [true, true]).Rules.getD 0 defaultRule).IsVisible = true :=
  visible_down_closed.1 testRS "pw" [] [true, true] (by decide) (by decide) (by decide)
    1 0 (by decide) (by decide) (by decide)

theorem analyzeOne_eq (ps pv : List Bool) (i : Nat) (r : Rule) (a : RuleChangeAnalysis) :
    analyzeOne ps pv i r a =
      { NewlySatisfied := a.NewlySatisfied ++ (if satNewP (ps.get? i) r then [r.ID] else []),
        NewlyUnsatisfied :=
          a.NewlyUnsatisfied ++ (if satGoneP (ps.get? i) r then [r.ID] else []),
        NewlyVisible := a.NewlyVisible ++ (if visNewP (pv.get? i) r then [r.ID] else []),
        NewlyHidden := a.NewlyHidden ++ (if visGoneP (pv.get? i) r then [r.ID] else []),
        HasChanges := a.HasChanges || satNewP (ps.get? i) r || satGoneP (ps.get? i) r ||
          visNewP (pv.get? i) r || visGoneP (pv.get? i) r } := by
  unfold analyzeOne satNewP satGoneP visNewP visGoneP
  rcases hs : ps.get? i with _ | ws <;> rcases hv : pv.get? i with _ | wv <;> dsimp only
  · cases hvis : r.IsVisible <;> simp
  · cases wv <;> cases hvis : r.IsVisible <;> simp
  · cases ws <;> cases hsat : r.IsSatisfied <;> cases hvis : r.IsVisible <;> simp
  · cases ws <;> cases wv <;> cases hsat : r.IsSatisfied <;> cases hvis : r.IsVisible <;> simp

theorem analyzeLoop_eq (ps pv : List Bool) :
    ∀ (todo : List Rule) (i : Nat) (a : RuleChangeAnalysis),
      analyzeLoop ps pv i todo a =
        { NewlySatisfied := a.NewlySatisfied ++ idsWhere satNewP ps i todo,
          NewlyUnsatisfied := a.NewlyUnsatisfied ++ idsWhere satGoneP ps i todo,
          NewlyVisible := a.NewlyVisible ++ idsWhere visNewP pv i todo,
          NewlyHidden := a.NewlyHidden ++ idsWhere visGoneP pv i todo,
          HasChanges := a.HasChanges || anyChange ps pv i todo } := by
  intro todo
  induction todo with
  | nil => intro i a; simp [analyzeLoop, idsWhere, anyChange]
  | cons r rest ih =>
      intro i a
      simp only [analyzeLoop, idsWhere, anyChange]
      rw [ih, analyzeOne_eq]
      dsimp only
      simp [List.append_assoc, Bool.or_assoc]

theorem analyzeRuleChanges_eq (rules : List Rule) (ps pv : List Bool) :
    analyzeRuleChanges rules ps pv =
      { NewlySatisfied := idsWhere satNewP ps 0 rules,
        NewlyUnsatisfied := idsWhere satGoneP ps 0 rules,
        NewlyVisible := idsWhere visNewP pv 0 rules,
        NewlyHidden := idsWhere visGoneP pv 0 rules,
        HasChanges := anyChange ps pv 0 rules } := by
  unfold analyzeRuleChanges emptyAnalysis
  rw [analyzeLoop_eq]
  simp

theorem get?_some_iff (l : List Bool) (i : Nat) (w : Bool) :
    l.get? i = some w ↔ (i < l.length ∧ l.getD i false = w) := by
  constructor
  · intro h
    obtain ⟨hlt, hget⟩ := List.get?_eq_some.mp h
    refine ⟨hlt, ?_⟩
    rw [List.getD_eq_getElem l false hlt, ← List.get_eq_getElem l ⟨i, hlt⟩, hget]
  · rintro ⟨hlt, hgd⟩
    apply List.get?_eq_some.mpr
    refine ⟨hlt, ?_⟩
    rw [List.get_eq_getElem l ⟨i, hlt⟩, ← List.getD_eq_getElem l false hlt, hgd]

theorem mem_idsWhere (p : Option Bool → Rule → Bool) (prior : List Bool) :
    ∀ (todo : List Rule) (i : Nat) (x : Int),
      x ∈ idsWhere p prior i todo ↔
        ∃ k, k < todo.length ∧ p (prior.get? (i + k)) (todo.getD k defaultRule) = true ∧
          (todo.getD k defaultRule).ID = x := by
  intro todo
  induction todo with
  | nil => intro i x; simp [idsWhere]
  | cons r rest ih =>
      intro i x
      simp only [idsWhere, List.mem_append]
      constructor
      · rintro (hx | hx)
        · by_cases hp : p (prior.get? i) r = true
          · rw [if_pos hp] at hx
            simp only [List.mem_singleton] at hx
            refine ⟨0, by simp, ?_, ?_⟩
            · simpa using hp
            · simpa using hx.symm
          · rw [if_neg hp] at hx
            simp at hx
        · obtain ⟨k, hk, hpk, hid⟩ := (ih (i + 1) x).mp hx
          refine ⟨k + 1, by simpa using Nat.succ_lt_succ hk, ?_, ?_⟩
          · have harith : i + (k + 1) = (i + 1) + k := by omega
            rw [harith, List.getD_cons_succ]
            exact hpk
          · rw [List.getD_cons_succ]
            exact hid
      · rintro ⟨k, hk, hpk, hid⟩
        cases k with
        | zero =>
            left
            simp only [Nat.add_zero, List.getD_cons_zero] at hpk hid
            rw [if_pos hpk]
            simp [hid]
        | succ n =>
            right
            refine (ih (i + 1) x).mpr ⟨n, ?_, ?_, ?_⟩
            · simp at hk
              omega
            · have harith : (i + 1) + n = i + (n + 1) := by omega
              rw [harith]
              simpa [List.getD_cons_succ] using hpk
            · simpa [List.getD_cons_succ] using hid

theorem anyChange_iff (ps pv : List Bool) :
    ∀ (todo : List Rule) (i : Nat),
      anyChange ps pv i todo = true ↔
        ∃ k, k < todo.length ∧
          (satNewP (ps.get? (i + k)) (todo.getD k defaultRule) = true ∨
           satGoneP (ps.get? (i + k)) (todo.getD k defaultRule) = true ∨
           visNewP (pv.get? (i + k)) (todo.getD k defaultRule) = true ∨
           visGoneP (pv.get? (i + k)) (todo.getD k defaultRule) = true) := by
  intro todo
  induction todo with
  | nil => intro i; simp [anyChange]
  | cons r rest ih =>
      intro i
      simp only [anyChange, Bool.or_eq_true]
      constructor
      · rintro ((((h | h) | h) | h) | h)
        · exact ⟨0, by simp, by simpa using Or.inl h⟩
        · exact ⟨0, by simp, by simpa using Or.inr (Or.inl h)⟩
        · exact ⟨0, by simp, by simpa using Or.inr (Or.inr (Or.inl h))⟩
        · exact ⟨0, by simp, by simpa using Or.inr (Or.inr (Or.inr h))⟩
        · obtain ⟨k, hk, hcase⟩ := (ih (i + 1)).mp h
          refine ⟨k + 1, by simpa using Nat.succ_lt_succ hk, ?_⟩
          have harith : i + (k + 1) = (i + 1) + k := by omega
          rw [harith, List.getD_cons_succ]
          exact hcase
      · rintro ⟨k, hk, hcase⟩
        cases k with
        | zero =>
            simp only [Nat.add_zero, List.getD_cons_zero] at hcase
            rcases hcase with h | h | h | h
            · exact Or.inl (Or.inl (Or.inl (Or.inl h)))
            · exact Or.inl (Or.inl (Or.inl (Or.inr h)))
            · exact Or.inl (Or.inl (Or.inr h))
            · exact Or.inl (Or.inr h)
        | succ n =>
            refine Or.inr ((ih (i + 1)).mpr ⟨n, ?_, ?_⟩)
            · simp at hk
              omega
            · have harith : (i + 1) + n = i + (n + 1) := by omega
              rw [harith]
              simpa [List.getD_cons_succ] using hcase

/-- C8: running analyzeRuleChanges on the rules produced by ValidatePassword,
with the same positional prior satisfied and visible sequences that were given
to the engine, always yields an empty NewlyHidden bucket: a prior visible
entry of true forces the rule to stay visible, so a visible-to-hidden
transition cannot be recorded. -/
theorem newly_hidden_empty (rs : RuleSet) (password : String) (ps pv : List Bool) :
    (analyzeRuleChanges (ValidatePassword rs password ps pv).Rules ps pv).NewlyHidden = [] := by
  rw [analyzeRuleChanges_eq]
  dsimp only
  rw [List.eq_nil_iff_forall_not_mem]
  intro x hx
  obtain ⟨k, hk, hpk, hid⟩ := (mem_idsWhere visGoneP pv _ 0 x).mp hx
  simp only [Nat.zero_add] at hpk
  rcases hg : pv.get? k with _ | w
  · rw [hg] at hpk
    simp [visGoneP] at hpk
  · rw [hg] at hpk
    unfold visGoneP at hpk
    simp only [Bool.and_eq_true, Bool.not_eq_true'] at hpk
    obtain ⟨hw, hinvis⟩ := hpk
    obtain ⟨hklt, hgd⟩ := (get?_some_iff pv k w).mp hg
    have hkrs : k < rs.Rules.length := by
      have := ValidatePassword_Rules_length rs password ps pv
      omega
    have hvis := vis_of_priorVisible rs password ps pv k hkrs (by rw [hgd, hw])
    rw [hvis] at hinvis
    simp at hinvis

theorem satNewP_char (ps : List Bool) (i : Nat) (r : Rule) :
    satNewP (ps.get? i) r = true ↔
      (i < ps.length ∧ ps.getD i false = false ∧ r.IsSatisfied = true) := by
  rcases h : ps.get? i with _ | w
  · have hle : ps.length ≤ i := List.get?_eq_none.mp h
    exact iff_of_false (by simp [satNewP]) (fun hc => by omega)
  · obtain ⟨hlt, hgd⟩ := (get?_some_iff ps i w).mp h
    simp only [satNewP, Bool.and_eq_true, Bool.not_eq_true']
    constructor
    · rintro ⟨hw, hs⟩
      exact ⟨hlt, by rw [hgd, hw], hs⟩
    · rintro ⟨_, hps, hs⟩
      rw [hgd] at hps
      exact ⟨hps, hs⟩

theorem satGoneP_char (ps : List Bool) (i : Nat) (r : Rule) :
    satGoneP (ps.get? i) r = true ↔
      (i < ps.length ∧ ps.getD i false = true ∧ r.IsSatisfied = false) := by
  rcases h : ps.get? i with _ | w
  · have hle : ps.length ≤ i := List.get?_eq_none.mp h
    exact iff_of_false (by simp [satGoneP]) (fun hc => by omega)
  · obtain ⟨hlt, hgd⟩ := (get?_some_iff ps i w).mp h
    simp only [satGoneP, Bool.and_eq_true, Bool.not_eq_true']
    constructor
    · rintro ⟨hw, hs⟩
      exact ⟨hlt, by rw [hgd, hw], hs⟩
    · rintro ⟨_, hps, hs⟩
      rw [hgd] at hps
      exact ⟨hps, hs⟩

theorem visNewP_char (pv : List Bool) (i : Nat) (r : Rule) :
    visNewP (pv.get? i) r = true ↔
      (pv.getD i false = false ∧ r.IsVisible = true) := by
  rcases h : pv.get? i with _ | w
  · have hle : pv.length ≤ i := List.get?_eq_none.mp h
    rw [List.getD_eq_default pv false hle]
    simp [visNewP]
  · obtain ⟨hlt, hgd⟩ := (get?_some_iff pv i w).mp h
    rw [hgd]
    simp [visNewP, Bool.and_eq_true, Bool.not_eq_true']

theorem visGoneP_char (pv : List Bool) (i : Nat) (r : Rule) :
    visGoneP (pv.get? i) r = true ↔
      (i < pv.length ∧ pv.getD i false = true ∧ r.IsVisible = false) := by
  rcases h : pv.get? i with _ | w
  · have hle : pv.length ≤ i := List.get?_eq_none.mp h
    exact iff_of_false (by simp [visGoneP]) (fun hc => by omega)
  · obtain ⟨hlt, hgd⟩ := (get?_some_iff pv i w).mp h
    simp only [visGoneP, Bool.and_eq_true, Bool.not_eq_true']
    constructor
    · rintro ⟨hw, hs⟩
      exact ⟨hlt, by rw [hgd, hw], hs⟩
    · rintro ⟨_, hps, hs⟩
      rw [hgd] at hps
      exact ⟨hps, hs⟩

theorem mem_idsWhere_nodup (p : Option Bool → Rule → Bool) (prior : List Bool)
    (rules : List Rule) (hnodup : (rules.map (fun r => r.ID)).Nodup)
    (i : Nat) (hi : i < rules.length) :
    ((rules.getD i defaultRule).ID ∈ idsWhere p prior 0 rules) ↔
      p (prior.get? i) (rules.getD i defaultRule) = true := by
  rw [mem_idsWhere]
  constructor
  · rintro ⟨k, hk, hpk, hid⟩
    have h1 : (rules.map (fun r => r.ID)).get ⟨k, by simpa using hk⟩ =
        (rules.map (fun r => r.ID)).get ⟨i, by simpa using hi⟩ := by
      simp only [List.get_eq_getElem, List.getElem_map]
      rw [← List.getD_eq_getElem rules defaultRule hk, ← List.getD_eq_getElem rules defaultRule hi]
      exact hid
    have h2 := (hnodup.get_inj_iff).mp h1
    have hkeq : k = i := by
      simpa using h2
    subst hkeq
    simpa using hpk
  · intro hp
    exact ⟨i, hi, by simpa using hp, rfl⟩

/-- C5 counterexample: a single satisfied, visible rule with empty prior
sequences.  Its satisfied value (true) differs from the defaulted prior entry
(false), so the claim puts its ID in NewlySatisfied, but analyzeRuleChanges
skips satisfaction classification entirely when previousSatisfied has no
entry at the index: both satisfaction buckets stay empty. -/
theorem change_set_counterexample :
    (analyzeRuleChanges [cexRuleSat] [] []).NewlySatisfied = [] ∧
    (analyzeRuleChanges [cexRuleSat] [] []).NewlyUnsatisfied = [] ∧
    cexRuleSat.IsSatisfied = true ∧
    ([] : List Bool).getD 0 false = false := by
  refine ⟨by decide, by decide, rfl, rfl⟩

/-- C5 (amended): for rules with pairwise distinct IDs, a rule's ID appears in
NewlySatisfied iff a prior satisfied entry exists at its index, was false,
and the rule is satisfied (and symmetrically for NewlyUnsatisfied) — rules
beyond the prior-satisfied sequence are never classified for satisfaction;
its ID appears in NewlyVisible iff the prior visible entry (defaulting to
false when absent) was false and the rule is visible, and in NewlyHidden iff
a prior visible entry exists, was true, and the rule is not visible; and
HasChanges is true iff at least one of the four buckets is non-empty. -/
theorem change_set_characterization (rules : List Rule) (ps pv : List Bool)
    (hnodup : (rules.map (fun r => r.ID)).Nodup) :
    (∀ i, i < rules.length →
      (((rules.getD i defaultRule).ID ∈ (analyzeRuleChanges rules ps pv).NewlySatisfied) ↔
        (i < ps.length ∧ ps.getD i false = false ∧
          (rules.getD i defaultRule).IsSatisfied = true)) ∧
      (((rules.getD i defaultRule).ID ∈ (analyzeRuleChanges rules ps pv).NewlyUnsatisfied) ↔
        (i < ps.length ∧ ps.getD i false = true ∧
          (rules.getD i defaultRule).IsSatisfied = false)) ∧
      (((rules.getD i defaultRule).ID ∈ (analyzeRuleChanges rules ps pv).NewlyVisible) ↔
        (pv.getD i false = false ∧ (rules.getD i defaultRule).IsVisible = true)) ∧
      (((rules.getD i defaultRule).ID ∈ (analyzeRuleChanges rules ps pv).NewlyHidden) ↔
        (i < pv.length ∧ pv.getD i false = true ∧
          (rules.getD i defaultRule).IsVisible = false)))
    ∧ ((analyzeRuleChanges rules ps pv).HasChanges = true ↔
        ((analyzeRuleChanges rules ps pv).NewlySatisfied ≠ [] ∨
         (analyzeRuleChanges rules ps pv).NewlyUnsatisfied ≠ [] ∨
         (analyzeRuleChanges rules ps pv).NewlyVisible ≠ [] ∨
         (analyzeRuleChanges rules ps pv).NewlyHidden ≠ [])) := by
  have hrc := analyzeRuleChanges_eq rules ps pv
  constructor
  · intro i hi
    refine ⟨?_, ?_, ?_, ?_⟩
    · rw [hrc]
      dsimp only
      rw [mem_idsWhere_nodup satNewP ps rules hnodup i hi, satNewP_char]
    · rw [hrc]
      dsimp only
      rw [mem_idsWhere_nodup satGoneP ps rules hnodup i hi, satGoneP_char]
    · rw [hrc]
      dsimp only
      rw [mem_idsWhere_nodup visNewP pv rules hnodup i hi, visNewP_char]
    · rw [hrc]
      dsimp only
      rw [mem_idsWhere_nodup visGoneP pv rules hnodup i hi, visGoneP_char]
  · rw [hrc]
    dsimp only
    rw [anyChange_iff]
    constructor
    · rintro ⟨k, hk, hcase⟩
      simp only [Nat.zero_add] at hcase
      rcases hcase with h | h | h | h
      · exact Or.inl (List.ne_nil_of_mem
          ((mem_idsWhere satNewP ps rules 0 (rules.getD k defaultRule).ID).mpr
            ⟨k, hk, by simpa using h, rfl⟩))
      · exact Or.inr (Or.inl (List.ne_nil_of_mem
          ((mem_idsWhere satGoneP ps rules 0 (rules.getD k defaultRule).ID).mpr
            ⟨k, hk, by simpa using h, rfl⟩)))
      · exact Or.inr (Or.inr (Or.inl (List.ne_nil_of_mem
          ((mem_idsWhere visNewP pv rules 0 (rules.getD k defaultRule).ID).mpr
            ⟨k, hk, by simpa using h, rfl⟩))))
      · exact Or.inr (Or.inr (Or.inr (List.ne_nil_of_mem
          ((mem_idsWhere visGoneP pv rules 0 (rules.getD k defaultRule).ID).mpr
            ⟨k, hk, by simpa using h, rfl⟩))))
    · rintro (h | h | h | h)
      · obtain ⟨x, hx⟩ := List.exists_mem_of_ne_nil _ h
        obtain ⟨k, hk, hpk, _⟩ := (mem_idsWhere satNewP ps rules 0 x).mp hx
        exact ⟨k, hk, Or.inl (by simpa using hpk)⟩
      · obtain ⟨x, hx⟩ := List.exists_mem_of_ne_nil _ h
        obtain ⟨k, hk, hpk, _⟩ := (mem_idsWhere satGoneP ps rules 0 x).mp hx
        exact ⟨k, hk, Or.inr (Or.inl (by simpa using hpk))⟩
      · obtain ⟨x, hx⟩ := List.exists_mem_of_ne_nil _ h
        obtain ⟨k, hk, hpk, _⟩ := (mem_idsWhere visNewP pv rules 0 x).mp hx
        exact ⟨k, hk, Or.inr (Or.inr (Or.inl (by simpa using hpk)))⟩
      · obtain ⟨x, hx⟩ := List.exists_mem_of_ne_nil _ h
        obtain ⟨k, hk, hpk, _⟩ := (mem_idsWhere visGoneP pv rules 0 x).mp hx
        exact ⟨k, hk, Or.inr (Or.inr (Or.inr (by simpa using hpk)))⟩

theorem change_set_characterization_witness :
    (analyzeRuleChanges testRS.Rules [false] [false]).HasChanges = true ↔
      ((analyzeRuleChanges testRS.Rules [false] [false]).NewlySatisfied ≠ [] ∨
       (analyzeRuleChanges testRS.Rules [false] [false]).NewlyUnsatisfied ≠ [] ∨
       (analyzeRuleChanges testRS.Rules [false] [false]).NewlyVisible ≠ [] ∨
       (analyzeRuleChanges testRS.Rules [false] [false]).NewlyHidden ≠ []) :=
  (change_set_characterization testRS.Rules [false] [false] (by decide)).2

theorem selectOne_length (swap : Rule → Rule → Bool) :
    ∀ (x : Rule) (l : List Rule), ((selectOne swap x l).2).length = l.length := by
  intro x l
  induction l generalizing x with
  | nil => rfl
  | cons y ys ih =>
      by_cases h : swap x y = true
      · simp [selectOne, h, ih]
      · simp [selectOne, h, ih]

theorem selectOne_cons_swap (swap : Rule → Rule → Bool) (x y : Rule) (ys : List Rule)
    (h : swap x y = true) :
    selectOne swap x (y :: ys) =
      ((selectOne swap y ys).1, x :: (selectOne swap y ys).2) := by
  simp [selectOne, h]

theorem selectOne_cons_noswap (swap : Rule → Rule → Bool) (x y : Rule) (ys : List Rule)
    (h : swap x y = false) :
    selectOne swap x (y :: ys) =
      ((selectOne swap x ys).1, y :: (selectOne swap x ys).2) := by
  simp [selectOne, h]

theorem selSort_nil (swap : Rule → Rule → Bool) : selSort swap [] = [] := by
  rw [selSort]

theorem selSort_cons (swap : Rule → Rule → Bool) (x : Rule) (xs : List Rule) :
    selSort swap (x :: xs) =
      (selectOne swap x xs).1 :: selSort swap (selectOne swap x xs).2 := by
  rw [selSort]

theorem selectOne_perm (swap : Rule → Rule → Bool) :
    ∀ (x : Rule) (l : List Rule),
      ((selectOne swap x l).1 :: (selectOne swap x l).2).Perm (x :: l) := by
  intro x l
  induction l generalizing x with
  | nil => simp [selectOne]
  | cons y ys ih =>
      by_cases h : swap x y = true
      · rw [selectOne_cons_swap swap x y ys h]
        exact (List.Perm.swap x (selectOne swap y ys).1 (selectOne swap y ys).2).trans
          ((ih y).cons x)
      · have hf : swap x y = false := by simpa using h
        rw [selectOne_cons_noswap swap x y ys hf]
        exact ((List.Perm.swap y (selectOne swap x ys).1 (selectOne swap x ys).2).trans
          ((ih x).cons y)).trans (List.Perm.swap x y ys)

theorem selectOne_min (swap : Rule → Rule → Bool)
    (htrans : ∀ a b c, swap a b = false → swap b c = false → swap a c = false)
    (hasym : ∀ a b, swap a b = true → swap b a = false)
    (hrefl : ∀ a, swap a a = false) :
    ∀ (l : List Rule) (x z : Rule), z ∈ x :: l →
      swap (selectOne swap x l).1 z = false := by
  intro l
  induction l with
  | nil =>
      intro x z hz
      simp only [List.mem_singleton] at hz
      subst hz
      simp [selectOne, hrefl]
  | cons y ys ih =>
      intro x z hz
      by_cases h : swap x y = true
      · rw [selectOne_cons_swap swap x y ys h]
        rcases List.mem_cons.mp hz with hzx | hz'
        · rw [hzx]
          have hm_y := ih y y (List.mem_cons_self y ys)
          exact htrans _ _ _ hm_y (hasym x y h)
        · exact ih y z hz'
      · have hxy : swap x y = false := by
          simpa using h
        rw [selectOne_cons_noswap swap x y ys hxy]
        rcases List.mem_cons.mp hz with hzx | hz'
        · rw [hzx]
          exact ih x x (List.mem_cons_self x ys)
        · rcases List.mem_cons.mp hz' with hzy | hz''
          · rw [hzy]
            exact htrans _ _ _ (ih x x (List.mem_cons_self x ys)) hxy
          · exact ih x z (List.mem_cons_of_mem x hz'')

theorem selSort_perm_aux (swap : Rule → Rule → Bool) :
    ∀ (n : Nat) (l : List Rule), l.length ≤ n → (selSort swap l).Perm l := by
  intro n
  induction n with
  | zero =>
      intro l hl
      have : l = [] := by
        cases l
        · rfl
        · simp at hl
      subst this
      rw [selSort_nil]
  | succ n ih =>
      intro l hl
      cases l with
      | nil =>
          rw [selSort_nil]
      | cons x xs =>
          rw [selSort_cons]
          have hlen := selectOne_length swap x xs
          have h1 := ih (selectOne swap x xs).2 (by simp at hl; omega)
          exact (h1.cons (selectOne swap x xs).1).trans (selectOne_perm swap x xs)

theorem selSort_perm (swap : Rule → Rule → Bool) (l : List Rule) :
    (selSort swap l).Perm l :=
  selSort_perm_aux swap l.length l (le_refl _)

theorem selSort_pairwise_aux (swap : Rule → Rule → Bool)
    (htrans : ∀ a b c, swap a b = false → swap b c = false → swap a c = false)
    (hasym : ∀ a b, swap a b = true → swap b a = false)
    (hrefl : ∀ a, swap a a = false) :
    ∀ (n : Nat) (l : List Rule), l.length ≤ n →
      (selSort swap l).Pairwise (fun a b => swap a b = false) := by
  intro n
  induction n with
  | zero =>
      intro l hl
      have : l = [] := by
        cases l
        · rfl
        · simp at hl
      subst this
      rw [selSort_nil]
      exact List.Pairwise.nil
  | succ n ih =>
      intro l hl
      cases l with
      | nil =>
          rw [selSort_nil]
          exact List.Pairwise.nil
      | cons x xs =>
          rw [selSort_cons]
          rw [List.pairwise_cons]
          have hlen := selectOne_length swap x xs
          constructor
          · intro z hz
            have hz1 : z ∈ (selectOne swap x xs).2 :=
              (selSort_perm swap (selectOne swap x xs).2).mem_iff.mp hz
            have hz2 : z ∈ (selectOne swap x xs).1 :: (selectOne swap x xs).2 :=
              List.mem_cons_of_mem _ hz1
            have hz3 : z ∈ x :: xs := (selectOne_perm swap x xs).mem_iff.mp hz2
            exact selectOne_min swap htrans hasym hrefl xs x z hz3
          · exact ih (selectOne swap x xs).2 (by simp at hl; omega)

theorem selSort_pairwise (swap : Rule → Rule → Bool)
    (htrans : ∀ a b c, swap a b = false → swap b c = false → swap a c = false)
    (hasym : ∀ a b, swap a b = true → swap b a = false)
    (hrefl : ∀ a, swap a a = false) (l : List Rule) :
    (selSort swap l).Pairwise (fun a b => swap a b = false) :=
  selSort_pairwise_aux swap htrans hasym hrefl l.length l (le_refl _)

theorem shouldSwap_trans :
    ∀ a b c : Rule, shouldSwap a b = false → shouldSwap b c = false →
      shouldSwap a c = false := by
  intro a b c
  unfold shouldSwap
  cases hsa : a.IsSatisfied <;> cases hsb : b.IsSatisfied <;> cases hsc : c.IsSatisfied <;>
    simp_all <;> omega

theorem shouldSwap_asym :
    ∀ a b : Rule, shouldSwap a b = true → shouldSwap b a = false := by
  intro a b
  unfold shouldSwap
  cases hsa : a.IsSatisfied <;> cases hsb : b.IsSatisfied <;> simp_all <;> omega

theorem shouldSwap_refl : ∀ a : Rule, shouldSwap a a = false := by
  intro a
  unfold shouldSwap
  simp

theorem keyLe_iff (a b : Rule) : keyLe a b ↔ shouldSwap a b = false := by
  unfold keyLe shouldSwap
  cases hsa : a.IsSatisfied <;> cases hsb : b.IsSatisfied <;> simp_all

/-- C4: GetSortedVisibleRules returns exactly the visible rules (as a
multiset), ordered with unsatisfied rules before satisfied ones and ascending
by ID within each group; and identical rule-flag state yields identical
output order. -/
theorem sorter_correct :
    ∀ rs : RuleSet,
      ((GetSortedVisibleRules rs).Perm (rs.Rules.filter (fun r => r.IsVisible))) ∧
      ((GetSortedVisibleRules rs).Pairwise keyLe) ∧
      (∀ rs' : RuleSet, rs.Rules = rs'.Rules →
        GetSortedVisibleRules rs = GetSortedVisibleRules rs') := by
  intro rs
  refine ⟨?_, ?_, ?_⟩
  · exact selSort_perm shouldSwap _
  · have hp := selSort_pairwise shouldSwap shouldSwap_trans shouldSwap_asym shouldSwap_refl
      (rs.Rules.filter (fun r => r.IsVisible))
    exact hp.imp (fun h => (keyLe_iff _ _).mpr h)
  · intro rs' h
    unfold GetSortedVisibleRules
    rw [h]

theorem sorter_correct_witness :
    GetSortedVisibleRules testRS = GetSortedVisibleRules testRS :=
  (sorter_correct testRS).2.2 testRS rfl

theorem byIDSwap_trans :
    ∀ a b c : Rule, byIDSwap a b = false → byIDSwap b c = false → byIDSwap a c = false := by
  intro a b c
  unfold byIDSwap
  simp
  omega

theorem byIDSwap_asym :
    ∀ a b : Rule, byIDSwap a b = true → byIDSwap b a = false := by
  intro a b
  unfold byIDSwap
  simp
  omega

theorem byIDSwap_refl : ∀ a : Rule, byIDSwap a a = false := by
  intro a
  unfold byIDSwap
  simp

/-- C7: NewRuleSet is total; with an unknown difficulty key (also the case
when the assignments mapping failed to load and is empty) it returns exactly
the basic-category rules of the pool, and with a known key it returns the
rules whose IDs are in the configured list, sorted ascending by ID. -/
theorem new_rule_set_total :
    ∀ (pool : List Rule) (assignments : List (String × List Int)) (difficulty : String),
      (assignments.lookup difficulty = none →
        (NewRuleSet pool assignments difficulty).Rules = GetRulesByCategory pool "basic" ∧
        (∀ r, r ∈ (NewRuleSet pool assignments difficulty).Rules ↔
          r ∈ pool ∧ r.Category = "basic"))
      ∧ (∀ ids, assignments.lookup difficulty = some ids →
          ((NewRuleSet pool assignments difficulty).Rules.Pairwise
            (fun a b => a.ID ≤ b.ID)) ∧
          ((NewRuleSet pool assignments difficulty).Rules.Perm (GetRulesByIDs pool ids)) ∧
          (∀ r, r ∈ (NewRuleSet pool assignments difficulty).Rules ↔
            r ∈ pool ∧ r.ID ∈ ids)) := by
  intro pool assignments difficulty
  constructor
  · intro hnone
    have hre : (NewRuleSet pool assignments difficulty).Rules =
        GetRulesByCategory pool "basic" := by
      simp only [NewRuleSet, hnone]
    refine ⟨hre, ?_⟩
    intro r
    rw [hre]
    unfold GetRulesByCategory
    rw [List.mem_filter]
    simp
  · intro ids hsome
    have hre : (NewRuleSet pool assignments difficulty).Rules =
        selSort byIDSwap (GetRulesByIDs pool ids) := by
      simp only [NewRuleSet, hsome]
    rw [hre]
    have hperm := selSort_perm byIDSwap (GetRulesByIDs pool ids)
    refine ⟨?_, hperm, ?_⟩
    · have hp := selSort_pairwise byIDSwap byIDSwap_trans byIDSwap_asym byIDSwap_refl
        (GetRulesByIDs pool ids)
      refine hp.imp (fun h => ?_)
      simp only [byIDSwap, decide_eq_false_iff_not, not_lt] at h
      exact h
    · intro r
      rw [hperm.mem_iff]
      unfold GetRulesByIDs
      rw [List.mem_filter]
      simp [List.elem_iff]

theorem new_rule_set_total_witness :
    (NewRuleSet testRS.Rules [] "impossible").Rules =
      GetRulesByCategory testRS.Rules "basic" :=
  ((new_rule_set_total testRS.Rules [] "impossible").1 rfl).1

end PasswordGame
